import Mathlib

/-!
Shallow embedding of the KRAG (Knowledge RAG) repository's pure core:
the document chunker (`app/document_processor/chunker.py`), the document
ranker (`app/query_engine/ranker.py`) and the retriever's query guard
(`app/query_engine/retriever.py`), together with theorems settling the
specification claims about them.

Python strings are modelled as `List Char`; Python floats (relevance
scores, the MMR lambda) are modelled as `ℚ`; Python dicts carrying
`score` / `content` plus arbitrary further keys are modelled by the
structure `Doc` whose `rest` field stands for the remaining key/value
content (so that equality of `Doc`s mirrors dict equality).
-/

namespace KRAG

/-- The set of characters Python's `str.strip` / `str.split()` treat as
whitespace on ASCII input. -/
def pyIsSpace (c : Char) : Bool :=
  c = ' ' || c = '\t' || c = '\n' || c = '\r' || c = '\x0b' || c = '\x0c'

/-- Python `s.strip()`: remove leading and trailing whitespace. -/
def pyStrip (l : List Char) : List Char :=
  ((l.dropWhile pyIsSpace).reverse.dropWhile pyIsSpace).reverse

/-- Python `s.lower()` (restricted to the ASCII case mapping). -/
def pyLower (l : List Char) : List Char := l.map Char.toLower

/-- Python `s.split()` with no argument: split on runs of whitespace,
discarding empty tokens. -/
def pySplitWs (l : List Char) : List (List Char) :=
  (l.splitOnP pyIsSpace).filter (fun t => t ≠ [])

/-- A document dict as used by `DocumentRanker`: optional `score` and
`content` keys, and `rest` standing for all the other key/value pairs. -/
structure Doc where
  score : Option ℚ
  content : Option (List Char)
  rest : ℕ
deriving DecidableEq, Repr, Inhabited

/-- Python `doc.get("score", 0.0)`. -/
def Doc.scoreD (d : Doc) : ℚ := d.score.getD 0

/-- Python `doc.get("content", "")`. -/
def Doc.contentD (d : Doc) : List Char := d.content.getD []

/-- The descending-score ordering used by Python's
`sorted(key=lambda x: x.get("score", 0.0), reverse=True)`. -/
def scoreGe (a b : Doc) : Prop := b.scoreD ≤ a.scoreD

instance : DecidableRel scoreGe := fun a b =>
  inferInstanceAs (Decidable (b.scoreD ≤ a.scoreD))

instance : IsTotal Doc scoreGe := ⟨fun a b => le_total b.scoreD a.scoreD⟩

instance : IsTrans Doc scoreGe := ⟨fun _ _ _ h1 h2 => le_trans h2 h1⟩

/-- Python `sorted(documents, key=lambda x: x.get("score", 0.0), reverse=True)`:
a stable sort, descending by score (Python's timsort is stable; any
stable sort computes the same list, here insertion sort). -/
def sortByScoreDesc (documents : List Doc) : List Doc :=
  documents.insertionSort scoreGe

/-- Source `DocumentRanker._rank_by_similarity`. -/
def rankBySimilarity (documents : List Doc) : List Doc :=
  sortByScoreDesc documents

/-- Source `DocumentRanker._rank_by_diversity`: sort descending, split at
`len // 2`, then interleave the two halves with the loop
`for i in range(max(len(high), len(medium)))`. -/
def rankByDiversity (documents : List Doc) : List Doc :=
  if documents.length ≤ 2 then documents
  else
    let sortedDocs := sortByScoreDesc documents
    let highScores := sortedDocs.take (sortedDocs.length / 2)
    let mediumScores := sortedDocs.drop (sortedDocs.length / 2)
    (List.range (max highScores.length mediumScores.length)).foldl
      (fun acc i => acc ++ (highScores.get? i).toList ++ (mediumScores.get? i).toList) []

/-- The case-insensitive whitespace-tokenized word set of a content
string: `set(content.lower().split())`. -/
def wordSet (content : List Char) : Finset (List Char) :=
  (pySplitWs (pyLower content)).toFinset

/-- The similarity penalty computed in `_rank_by_mmr`'s inner loop: the
running maximum, over the already selected documents, of the Jaccard word
overlap with `doc`, starting at `0` and skipping pairs where either word
set is empty. -/
def simPenalty (selected : List Doc) (doc : Doc) : ℚ :=
  selected.foldl
    (fun penalty sel =>
      let docWords := wordSet doc.contentD
      let selWords := wordSet sel.contentD
      if docWords ≠ ∅ ∧ selWords ≠ ∅ then
        max penalty (((docWords ∩ selWords).card : ℚ) / ((docWords ∪ selWords).card : ℚ))
      else penalty)
    0

/-- The MMR objective: `lambda * relevance − (1 − lambda) * penalty`. -/
def mmrScore (lam : ℚ) (selected : List Doc) (doc : Doc) : ℚ :=
  lam * doc.scoreD - (1 - lam) * simPenalty selected doc

/-- The running-maximum fold inside Python's `max(items, key=f)`: a later
element replaces the current best only on strict increase of the key. -/
def keepMax (f : Doc → ℚ) (b0 : Doc) (l : List Doc) : Doc :=
  l.foldl (fun best y => if f best < f y then y else best) b0

/-- Python's `max(items, key=f)`: the first element attaining the maximal
key. -/
def firstMaxBy (f : Doc → ℚ) : List Doc → Option Doc
  | [] => none
  | x :: xs => some (keepMax f x xs)

/-- The selection loop of `_rank_by_mmr`:
`while remaining and len(selected) < n`, pick the first maximiser of the
MMR score, append it to `selected` and `remaining.remove` it. -/
def mmrLoop (lam : ℚ) (n : ℕ) : List Doc → List Doc → ℕ → List Doc
  | selected, _, 0 => selected
  | selected, remaining, fuel + 1 =>
    if remaining ≠ [] ∧ selected.length < n then
      match firstMaxBy (mmrScore lam selected) remaining with
      | some best => mmrLoop lam n (selected ++ [best]) (remaining.erase best) fuel
      | none => selected
    else selected

/-- Source `DocumentRanker._rank_by_mmr` (with its `lambda_param` argument). -/
def rankByMmr (lam : ℚ) (documents : List Doc) : List Doc :=
  if documents.length ≤ 1 then documents
  else
    let sortedDocs := sortByScoreDesc documents
    match sortedDocs with
    | [] => []
    | s0 :: rest => mmrLoop lam documents.length [s0] rest rest.length

/-- The strategy dispatch inside `DocumentRanker.rank` (the local
variable `ranked`): unknown strategies fall back to similarity, and the
`mmr` strategy is invoked with its default `lambda_param = 0.5`. -/
def rankCore (strategy : String) (documents : List Doc) : List Doc :=
  if strategy = "similarity" then rankBySimilarity documents
  else if strategy = "diversity" then rankByDiversity documents
  else if strategy = "mmr" then rankByMmr (1 / 2) documents
  else rankBySimilarity documents

/-- Source `DocumentRanker.rank`: empty input guard, strategy dispatch, then
truncation to `top_k` when given and smaller than the ranked length.
The `query` parameter is accepted, as in the source, but never read. -/
def rank (strategy : String) (documents : List Doc) (query : Option String)
    (topK : Option ℕ) : List Doc :=
  if documents = [] then []
  else
    match topK with
    | some k =>
      if k < (rankCore strategy documents).length then
        (rankCore strategy documents).take k
      else rankCore strategy documents
    | none => rankCore strategy documents

/-- Source `DocumentRanker.filter_by_threshold`. -/
def filterByThreshold (documents : List Doc) (threshold : ℚ) : List Doc :=
  documents.filter (fun doc => decide (threshold ≤ doc.scoreD))

/-- Python `sep.join(parts)`. -/
def pyJoin (sep : List Char) : List (List Char) → List Char
  | [] => []
  | [x] => x
  | x :: y :: rest => x ++ sep ++ pyJoin sep (y :: rest)

/-- Sum of the lengths of a list of strings. -/
def sumLens (l : List (List Char)) : ℕ := (l.map List.length).sum

/-- Translate a Python slice index to a position in `0..len`
(negative indices count from the end, everything is clamped). -/
def pyIdx (len : ℕ) (i : Int) : ℕ :=
  if i < 0 then ((len : Int) + i).toNat else min i.toNat len

/-- Python `text[a:b]` for `int` indices `a` and `b`. -/
def pySlice (l : List Char) (a b : Int) : List Char :=
  (l.take (pyIdx l.length b)).drop (pyIdx l.length a)

/-- Python `text.rfind(sub)` for nonempty `sub`: the greatest index at
which `sub` occurs, `−1` when it does not occur. -/
def rfindSub (l sub : List Char) : Int :=
  match ((List.range l.length).filter (fun i => sub.isPrefixOf (l.drop i))).getLast? with
  | some i => (i : Int)
  | none => -1

/-- The window-end computation of `_chunk_by_character`: nominally
`start + chunk_size`; if that is inside the text, look inside the window
for the last `". "` or `"\n"` and, when that break point lies past the
window midpoint, end just after it. -/
def charWindowEnd (cs : ℕ) (text : List Char) (start : Int) : Int :=
  let e0 : Int := start + cs
  if e0 < (text.length : Int) then
    let chunkText := pySlice text start e0
    let lastPeriod := rfindSub chunkText ['.', ' ']
    let lastNewline := rfindSub chunkText ['\n']
    let breakPoint := max lastPeriod lastNewline
    if breakPoint > ((cs / 2 : ℕ) : Int) then start + breakPoint + 1 else e0
  else e0

/-- The next window start of `_chunk_by_character`:
`start = end − chunk_overlap`. -/
def charNextStart (cs ov : ℕ) (text : List Char) (start : Int) : Int :=
  charWindowEnd cs text start - ov

/-- Loop `while start < text_length` of `_chunk_by_character`,
with explicit fuel; `none` means the loop did not finish within the
given number of iterations. -/
def chunkByCharAux (cs ov : ℕ) (text : List Char) : Int → ℕ → Option (List (List Char))
  | start, 0 => if start < (text.length : Int) then none else some []
  | start, fuel + 1 =>
    if start < (text.length : Int) then
      let e := charWindowEnd cs text start
      let chunk := pyStrip (pySlice text start e)
      (chunkByCharAux cs ov text (e - ov) fuel).map
        (fun rest => if chunk ≠ [] then chunk :: rest else rest)
    else some []

/-- Source `DocumentChunker._chunk_by_character`, started at `start = 0` with
fuel `len(text) + 1` (enough iterations whenever every step makes forward
progress, as a terminating run from 0 visits at most `len(text) + 1`
window starts). -/
def chunkByCharacter (cs ov : ℕ) (text : List Char) : Option (List (List Char)) :=
  chunkByCharAux cs ov text 0 (text.length + 1)

/-- Sentence terminators of the splitting regex `(?<=[.!?])\s+`. -/
def sentenceEnders : List Char := ['.', '!', '?']

/-- Scanner state for `re.split(r"(?<=[.!?])\s+", text)`: finished
segments, the current segment in reverse, and whether we are inside a
separator (a whitespace run preceded by a terminator). -/
structure SentSplitState where
  done : List (List Char)
  cur : List Char
  inSep : Bool
deriving Repr

/-- One scanner step for `re.split(r"(?<=[.!?])\s+", text)`: a separator
starts at a whitespace character whose predecessor is a sentence
terminator, and extends over the maximal whitespace run. -/
def sentSplitStep (st : SentSplitState) (c : Char) : SentSplitState :=
  if st.inSep then
    if pyIsSpace c then st
    else { done := st.done, cur := [c], inSep := false }
  else
    match st.cur with
    | p :: _ =>
      if pyIsSpace c ∧ p ∈ sentenceEnders then
        { done := st.done ++ [st.cur.reverse], cur := [], inSep := true }
      else { st with cur := c :: st.cur }
    | [] => { st with cur := c :: st.cur }

/-- Python `re.split(r"(?<=[.!?])\s+", text)` (note: a trailing separator
produces a final empty segment, exactly as in Python). -/
def pySentSplit (text : List Char) : List (List Char) :=
  let st := text.foldl sentSplitStep ⟨[], [], false⟩
  st.done ++ [st.cur.reverse]

/-- Accumulator of `_chunk_by_sentence`: emitted chunks, the current
chunk's sentences, and `current_size` (sum of sentence lengths, without
joining spaces). -/
structure SentChunkState where
  chunks : List (List Char)
  cur : List (List Char)
  size : ℕ
deriving DecidableEq, Repr

/-- The backward overlap selection of `_chunk_by_sentence`: walk the
reversed sentence list, keep prepending sentences while they fit in the
overlap budget, stop at the first that does not. -/
def overlapPick (ov : ℕ) : List (List Char) → List (List Char) → ℕ → List (List Char) × ℕ
  | [], acc, osz => (acc, osz)
  | s :: rest, acc, osz =>
    if osz + s.length ≤ ov then overlapPick ov rest (s :: acc) (osz + s.length)
    else (acc, osz)

/-- The per-sentence step of `_chunk_by_sentence`: on overflow emit the
accumulated sentences and start the next chunk with the backward overlap
selection (or with nothing when the emitted text already fits inside the
overlap budget); then append the incoming sentence. -/
def sentChunkStep (cs ov : ℕ) (st : SentChunkState) (sentence : List Char) : SentChunkState :=
  let ssize := sentence.length
  let st1 :=
    if st.size + ssize > cs ∧ st.cur ≠ [] then
      let emitted := pyJoin [' '] st.cur
      let chunks := st.chunks ++ [emitted]
      if emitted.length > ov then
        let picked := overlapPick ov st.cur.reverse [] 0
        { chunks := chunks, cur := picked.1, size := picked.2 }
      else { chunks := chunks, cur := [], size := 0 }
    else st
  { chunks := st1.chunks, cur := st1.cur ++ [sentence], size := st1.size + ssize }

/-- Source `DocumentChunker._chunk_by_sentence`. -/
def chunkBySentence (cs ov : ℕ) (text : List Char) : List (List Char) :=
  let st := (pySentSplit text).foldl (sentChunkStep cs ov) ⟨[], [], 0⟩
  if st.cur ≠ [] then st.chunks ++ [pyJoin [' '] st.cur] else st.chunks

/-- Scanner state for Python `text.split("\n\n")`: finished segments,
current segment in reverse, and whether one `'\n'` is pending. -/
structure ParaSplitState where
  done : List (List Char)
  cur : List Char
  pending : Bool
deriving Repr

/-- One scanner step for `text.split("\n\n")` (leftmost, non-overlapping
occurrences of the separator). -/
def paraSplitStep (st : ParaSplitState) (c : Char) : ParaSplitState :=
  if st.pending then
    if c = '\n' then { done := st.done ++ [st.cur.reverse], cur := [], pending := false }
    else { done := st.done, cur := c :: '\n' :: st.cur, pending := false }
  else
    if c = '\n' then { st with pending := true }
    else { st with cur := c :: st.cur }

/-- Python `text.split("\n\n")`. -/
def pySplitParas (text : List Char) : List (List Char) :=
  let st := text.foldl paraSplitStep ⟨[], [], false⟩
  st.done ++ [if st.pending then ('\n' :: st.cur).reverse else st.cur.reverse]

/-- Accumulator of `_chunk_by_paragraph`: emitted chunks, accumulated
paragraphs, and `current_size` (sum of paragraph lengths, without the
`"\n\n"` joiners). -/
structure ParaChunkState where
  chunks : List (List Char)
  cur : List (List Char)
  size : ℕ
deriving DecidableEq, Repr

/-- The per-paragraph step of `_chunk_by_paragraph`: skip blank
paragraphs; delegate oversized paragraphs to character chunking (after
flushing the accumulation); on overflow emit the accumulation and carry
over the single most recent paragraph exactly when `current_size`
exceeds `chunk_overlap`; then append the paragraph. -/
def paraChunkStep (cs ov : ℕ) (para0 : List Char) (st : ParaChunkState) :
    Option ParaChunkState :=
  let para := pyStrip para0
  if para = [] then some st
  else if para.length > cs then
    let st1 :=
      if st.cur ≠ [] then
        { chunks := st.chunks ++ [pyJoin ['\n', '\n'] st.cur], cur := ([] : List (List Char)),
          size := 0 }
      else st
    (chunkByCharacter cs ov para).map
      (fun paraChunks =>
        { chunks := st1.chunks ++ paraChunks, cur := st1.cur, size := st1.size })
  else
    let st1 :=
      if st.size + para.length > cs ∧ st.cur ≠ [] then
        let chunks := st.chunks ++ [pyJoin ['\n', '\n'] st.cur]
        if st.size > ov then
          { chunks := chunks, cur := [st.cur.getLast?.getD []],
            size := (st.cur.getLast?.getD []).length }
        else { chunks := chunks, cur := ([] : List (List Char)), size := 0 }
      else st
    some { chunks := st1.chunks, cur := st1.cur ++ [para], size := st1.size + para.length }

/-- Source `DocumentChunker._chunk_by_paragraph` (`none` when a delegated
character-chunking run does not terminate within its fuel). -/
def chunkByParagraph (cs ov : ℕ) (text : List Char) : Option (List (List Char)) :=
  ((pySplitParas text).foldl
      (fun acc p => acc.bind (fun st => paraChunkStep cs ov p st))
      (some ⟨[], [], 0⟩)).map
    (fun st => if st.cur ≠ [] then st.chunks ++ [pyJoin ['\n', '\n'] st.cur] else st.chunks)

/-- The chunk-text computation of `DocumentChunker.chunk`: empty or
all-whitespace text yields no chunks, otherwise dispatch on the strategy
(unknown strategies fall back to character). -/
def chunkTexts (strategy : String) (cs ov : ℕ) (text : List Char) :
    Option (List (List Char)) :=
  if pyStrip text = [] then some []
  else if strategy = "character" then chunkByCharacter cs ov text
  else if strategy = "sentence" then some (chunkBySentence cs ov text)
  else if strategy = "paragraph" then chunkByParagraph cs ov text
  else chunkByCharacter cs ov text

/-- One emitted unit of `DocumentChunker.chunk`: its content and its
`chunk_index` (the attached metadata copy is independent of chunking and
omitted). -/
structure ChunkData where
  content : List Char
  chunkIndex : ℕ
deriving DecidableEq, Repr

/-- Source `DocumentChunker.chunk`: the chunk texts, each paired with its
index. -/
def chunk (strategy : String) (cs ov : ℕ) (text : List Char) :
    Option (List ChunkData) :=
  (chunkTexts strategy cs ov text).map
    (fun chunks => chunks.enum.map (fun p => ⟨p.2, p.1⟩))

/-- The observable outcome of one `DocumentRetriever.retrieve` call: the
returned documents and how many times each collaborator was invoked. -/
structure RetrieveOutcome where
  results : List Doc
  embedderCalls : ℕ
  indexCalls : ℕ
deriving DecidableEq, Repr

/-- Source `DocumentRetriever.retrieve`, with the embedder and the vector-store
search abstracted as function parameters: an empty or whitespace-only
query short-circuits to an empty result, otherwise the query is embedded
and the index searched with `top_k` (the override or the default). -/
def retrieve {Emb : Type} (embed : List Char → Emb)
    (search : Emb → ℕ → List Doc) (defaultTopK : ℕ)
    (query : List Char) (topK : Option ℕ) : RetrieveOutcome :=
  if pyStrip query = [] then ⟨[], 0, 0⟩
  else
    let k := topK.getD defaultTopK
    ⟨search (embed query) k, 1, 1⟩

/-- Predicate: `b` is the first element of `l` attaining the maximal value of `f`:
everything in `l` is bounded by `f b`, and everything strictly before `b`
is strictly below it.  This is claim C6's tie-breaking rule. -/
def IsFirstMax (f : Doc → ℚ) (l : List Doc) (b : Doc) : Prop :=
  ∃ l1 l2, l = l1 ++ b :: l2 ∧ (∀ y ∈ l, f y ≤ f b) ∧ (∀ y ∈ l1, f y < f b)

/-- The greedy MMR selection described by claim C6:
`MmrTrace lam selected remaining out` holds when `out` is produced from
`remaining` by repeatedly emitting the earliest remaining candidate that
maximises `mmrScore lam selected`, accumulating emitted candidates into
`selected`. -/
inductive MmrTrace (lam : ℚ) : List Doc → List Doc → List Doc → Prop
  | done (selected : List Doc) : MmrTrace lam selected [] []
  | step {selected remaining out : List Doc} {b : Doc} :
      IsFirstMax (mmrScore lam selected) remaining b →
      MmrTrace lam (selected ++ [b]) (remaining.erase b) out →
      MmrTrace lam selected remaining (b :: out)

/-- Interleaving two lists `upper[0], lower[0], upper[1], lower[1], …`
until both are exhausted (the non-exhausted half keeps emitting). -/
def interleave : List Doc → List Doc → List Doc
  | [], ys => ys
  | x :: xs, [] => x :: xs
  | x :: xs, y :: ys => x :: y :: interleave xs ys

/-- The diversity ranking as claim C3 words it: sort descending, split
into an upper half that is *inclusive of the middle element* when the
length is odd (i.e. the first `⌈n/2⌉` elements), and interleave. -/
def diversityClaimC3 (documents : List Doc) : List Doc :=
  let sortedDocs := sortByScoreDesc documents
  interleave (sortedDocs.take ((sortedDocs.length + 1) / 2))
    (sortedDocs.drop ((sortedDocs.length + 1) / 2))

end KRAG

namespace KRAG

/-- C7: `filter_by_threshold` keeps exactly the candidates whose
relevance is at least the threshold, in input order (a sublist of the
input), and it is idempotent. -/
theorem C7_filter_threshold (documents : List Doc) (threshold : ℚ) :
    (filterByThreshold documents threshold).Sublist documents ∧
    (∀ d ∈ filterByThreshold documents threshold, threshold ≤ d.scoreD) ∧
    (∀ d ∈ documents, threshold ≤ d.scoreD → d ∈ filterByThreshold documents threshold) ∧
    filterByThreshold (filterByThreshold documents threshold) threshold =
      filterByThreshold documents threshold := by
  refine ⟨List.filter_sublist documents, ?_, ?_, ?_⟩
  · intro d hd
    have := (List.mem_filter.mp hd).2
    simpa using of_decide_eq_true this
  · intro d hd hscore
    exact List.mem_filter.mpr ⟨hd, decide_eq_true hscore⟩
  · unfold filterByThreshold
    rw [List.filter_filter]
    simp

/-- C7 witness at a concrete list and threshold. -/
theorem C7_filter_threshold_witness :
    (filterByThreshold [⟨some 2, none, 0⟩, ⟨some 1, none, 1⟩] 2).Sublist
        [⟨some 2, none, 0⟩, ⟨some 1, none, 1⟩] ∧
    ((2 : ℚ) ≤ (⟨some 2, none, 0⟩ : Doc).scoreD →
      (⟨some 2, none, 0⟩ : Doc) ∈ filterByThreshold [⟨some 2, none, 0⟩, ⟨some 1, none, 1⟩] 2) := by
  refine ⟨(C7_filter_threshold [⟨some 2, none, 0⟩, ⟨some 1, none, 1⟩] 2).1, ?_⟩
  intro h
  exact (C7_filter_threshold [⟨some 2, none, 0⟩, ⟨some 1, none, 1⟩] 2).2.2.1
    ⟨some 2, none, 0⟩ (by simp) h

/-- C1: with the valid configuration `unit_size = 10`, `overlap = 8`
(`0 ≤ 8 < 10`) and the text `"aaaaaaa. aaaa"`, the character window
starting at position 0 (a position inside the text) ends at 8 after the
break-point shortening, so the next start is `8 − 8 = 0`: the window
does not advance at all, the loop re-emits the same unit forever, and
the run does not finish within the structural iteration bound. -/
theorem C1_character_no_progress :
    (0 : Int) < ("aaaaaaa. aaaa".toList.length : Int) ∧
    charNextStart 10 8 "aaaaaaa. aaaa".toList 0 = 0 ∧
    chunkByCharacter 10 8 "aaaaaaa. aaaa".toList = none :=
  ⟨by decide, by decide, by decide⟩

theorem chunkByCharAux_nonempty (cs ov : ℕ) (text : List Char) :
    ∀ (fuel : ℕ) (start : Int) (res : List (List Char)),
      chunkByCharAux cs ov text start fuel = some res → ∀ c ∈ res, c ≠ [] := by
  intro fuel
  induction fuel with
  | zero =>
    intro start res h c hc
    rw [chunkByCharAux] at h
    by_cases hs : start < (text.length : Int)
    · rw [if_pos hs] at h
      exact absurd h (by simp)
    · rw [if_neg hs] at h
      injection h with h
      subst h
      simp at hc
  | succ fuel ih =>
    intro start res h c hc
    simp only [chunkByCharAux] at h
    by_cases hs : start < (text.length : Int)
    · rw [if_pos hs] at h
      cases haux : chunkByCharAux cs ov text (charWindowEnd cs text start - ov) fuel with
      | none =>
        rw [haux] at h
        exact absurd h (by simp)
      | some rest =>
        rw [haux] at h
        simp only [Option.map_some'] at h
        injection h with h
        subst h
        by_cases hch : pyStrip (pySlice text start (charWindowEnd cs text start)) ≠ []
        · rw [if_pos hch] at hc
          rcases List.mem_cons.mp hc with rfl | hmem
          · exact hch
          · exact ih _ rest haux c hmem
        · rw [if_neg hch] at hc
          exact ih _ rest haux c hc
    · rw [if_neg hs] at h
      injection h with h
      subst h
      simp at hc

theorem chunkByCharacter_nonempty (cs ov : ℕ) (text : List Char)
    (res : List (List Char)) (h : chunkByCharacter cs ov text = some res) :
    ∀ c ∈ res, c ≠ [] :=
  chunkByCharAux_nonempty cs ov text _ 0 res h

theorem pyJoin_ne_nil (sep : List Char) (l : List (List Char)) (hl : l ≠ [])
    (h : ∀ p ∈ l, p ≠ []) : pyJoin sep l ≠ [] := by
  match l with
  | [x] => simpa [pyJoin] using h x (by simp)
  | x :: y :: rest =>
    intro contra
    rw [pyJoin] at contra
    simp only [List.append_eq_nil] at contra
    exact h x (by simp) contra.1.1

theorem paraChunkStep_inv (cs ov : ℕ) (p : List Char) (st st1 : ParaChunkState)
    (h1 : ∀ c ∈ st.chunks, c ≠ []) (h2 : ∀ q ∈ st.cur, q ≠ [])
    (h : paraChunkStep cs ov p st = some st1) :
    (∀ c ∈ st1.chunks, c ≠ []) ∧ (∀ q ∈ st1.cur, q ≠ []) := by
  simp only [paraChunkStep] at h
  by_cases hp : pyStrip p = []
  · rw [if_pos hp] at h
    injection h with h
    subst h
    exact ⟨h1, h2⟩
  · rw [if_neg hp] at h
    by_cases hbig : (pyStrip p).length > cs
    · rw [if_pos hbig] at h
      cases hcc : chunkByCharacter cs ov (pyStrip p) with
      | none =>
        rw [hcc] at h
        exact absurd h (by simp)
      | some pcs =>
        rw [hcc] at h
        simp only [Option.map_some'] at h
        injection h with h
        subst h
        have hpcs := chunkByCharacter_nonempty cs ov (pyStrip p) pcs hcc
        by_cases hcur : st.cur ≠ []
        · rw [if_pos hcur]
          refine ⟨?_, by simp⟩
          intro c hcmem
          rcases List.mem_append.mp hcmem with hcm | hcm
          · rcases List.mem_append.mp hcm with hcm | hcm
            · exact h1 c hcm
            · rw [List.mem_singleton.mp hcm]
              exact pyJoin_ne_nil _ _ hcur h2
          · exact hpcs c hcm
        · rw [if_neg hcur]
          refine ⟨?_, h2⟩
          intro c hcmem
          rcases List.mem_append.mp hcmem with hcm | hcm
          · exact h1 c hcm
          · exact hpcs c hcm
    · rw [if_neg hbig] at h
      injection h with h
      subst h
      by_cases hover : st.size + (pyStrip p).length > cs ∧ st.cur ≠ []
      · rw [if_pos hover]
        by_cases hsz : st.size > ov
        · rw [if_pos hsz]
          refine ⟨?_, ?_⟩
          · intro c hcmem
            rcases List.mem_append.mp hcmem with hcm | hcm
            · exact h1 c hcm
            · rw [List.mem_singleton.mp hcm]
              exact pyJoin_ne_nil _ _ hover.2 h2
          · intro q hq
            rcases List.mem_append.mp hq with hqm | hqm
            · rw [List.mem_singleton.mp hqm]
              cases hlast : st.cur.getLast? with
              | none => exact absurd (List.getLast?_eq_none_iff.mp hlast) hover.2
              | some x =>
                have hx : x ∈ st.cur := by
                  have := List.getLast?_eq_getLast st.cur hover.2
                  rw [hlast] at this
                  injection this with this
                  rw [this]
                  exact List.getLast_mem hover.2
                simpa [hlast] using h2 x hx
            · rw [List.mem_singleton.mp hqm]
              exact hp
        · rw [if_neg hsz]
          refine ⟨?_, ?_⟩
          · intro c hcmem
            rcases List.mem_append.mp hcmem with hcm | hcm
            · exact h1 c hcm
            · rw [List.mem_singleton.mp hcm]
              exact pyJoin_ne_nil _ _ hover.2 h2
          · intro q hq
            have hq2 : q = pyStrip p := by simpa using hq
            rw [hq2]
            exact hp
      · rw [if_neg hover]
        refine ⟨h1, ?_⟩
        intro q hq
        rcases List.mem_append.mp hq with hqm | hqm
        · exact h2 q hqm
        · rw [List.mem_singleton.mp hqm]
          exact hp

theorem paraFold_none (cs ov : ℕ) (paras : List (List Char)) :
    paras.foldl (fun acc p => acc.bind (fun st => paraChunkStep cs ov p st)) none = none := by
  induction paras with
  | nil => rfl
  | cons p ps ih => simpa using ih

theorem paraFold_inv (cs ov : ℕ) :
    ∀ (paras : List (List Char)) (st : ParaChunkState),
      (∀ c ∈ st.chunks, c ≠ []) → (∀ q ∈ st.cur, q ≠ []) →
      ∀ stR, paras.foldl (fun acc p => acc.bind (fun s => paraChunkStep cs ov p s))
          (some st) = some stR →
      (∀ c ∈ stR.chunks, c ≠ []) ∧ (∀ q ∈ stR.cur, q ≠ []) := by
  intro paras
  induction paras with
  | nil =>
    intro st h1 h2 stR h
    simp only [List.foldl_nil] at h
    injection h with h
    subst h
    exact ⟨h1, h2⟩
  | cons p ps ih =>
    intro st h1 h2 stR h
    rw [List.foldl_cons] at h
    cases hstep : paraChunkStep cs ov p st with
    | none =>
      rw [show (some st).bind (fun s => paraChunkStep cs ov p s) = none by
        simpa using hstep] at h
      rw [paraFold_none] at h
      exact absurd h (by simp)
    | some stm =>
      have hpres := paraChunkStep_inv cs ov p st stm h1 h2 hstep
      rw [show (some st).bind (fun s => paraChunkStep cs ov p s) = some stm by
        simpa using hstep] at h
      exact ih stm hpres.1 hpres.2 stR h

theorem chunkByParagraph_nonempty (cs ov : ℕ) (text : List Char)
    (res : List (List Char)) (h : chunkByParagraph cs ov text = some res) :
    ∀ c ∈ res, c ≠ [] := by
  simp only [chunkByParagraph] at h
  cases hf : (pySplitParas text).foldl
      (fun acc p => acc.bind (fun st => paraChunkStep cs ov p st)) (some ⟨[], [], 0⟩) with
  | none =>
    rw [hf] at h
    exact absurd h (by simp)
  | some stR =>
    rw [hf] at h
    simp only [Option.map_some'] at h
    injection h with h
    subst h
    have hinv := paraFold_inv cs ov (pySplitParas text) ⟨[], [], 0⟩
      (by simp) (by simp) stR hf
    by_cases hcur : stR.cur ≠ []
    · rw [if_pos hcur]
      intro c hcmem
      rcases List.mem_append.mp hcmem with hcm | hcm
      · exact hinv.1 c hcm
      · rw [List.mem_singleton.mp hcm]
        exact pyJoin_ne_nil _ _ hcur hinv.2
    · rw [if_neg hcur]
      exact hinv.1

/-- C2 (amended): empty or all-whitespace input yields an empty unit
sequence under every strategy, and the character and paragraph
strategies (and the fallback for unknown strategy names) never emit an
empty-content unit; the sentence strategy is excluded because it can
emit one (see the counterexample). -/
theorem C2_amended (strategy : String) (cs ov : ℕ) (text : List Char) :
    (pyStrip text = [] → chunk strategy cs ov text = some []) ∧
    (strategy ≠ "sentence" →
      ∀ res, chunk strategy cs ov text = some res → ∀ u ∈ res, u.content ≠ []) := by
  constructor
  · intro h
    simp [chunk, chunkTexts, h]
  · intro hstrat res h u hu
    simp only [chunk] at h
    cases hct : chunkTexts strategy cs ov text with
    | none =>
      rw [hct] at h
      exact absurd h (by simp)
    | some chunksL =>
      rw [hct] at h
      simp only [Option.map_some'] at h
      injection h with h
      subst h
      obtain ⟨pr, hpr, hupr⟩ := List.mem_map.mp hu
      have hmem : pr.2 ∈ chunksL := by
        have hms := List.enum_map_snd chunksL
        exact hms ▸ List.mem_map_of_mem Prod.snd hpr
      have hcontent : u.content = pr.2 := by rw [← hupr]
      rw [hcontent]
      simp only [chunkTexts] at hct
      by_cases hws : pyStrip text = []
      · rw [if_pos hws] at hct
        injection hct with hct
        subst hct
        simp at hmem
      · rw [if_neg hws] at hct
        by_cases hc1 : strategy = "character"
        · rw [if_pos hc1] at hct
          exact chunkByCharacter_nonempty _ _ _ _ hct _ hmem
        · rw [if_neg hc1, if_neg hstrat] at hct
          by_cases hc3 : strategy = "paragraph"
          · rw [if_pos hc3] at hct
            exact chunkByParagraph_nonempty _ _ _ _ hct _ hmem
          · rw [if_neg hc3] at hct
            exact chunkByCharacter_nonempty _ _ _ _ hct _ hmem

/-- C2 witness: whitespace-only input under the paragraph strategy, and
a concrete character run whose single unit has nonempty content. -/
theorem C2_amended_witness :
    chunk "paragraph" 5 3 "  ".toList = some [] ∧
    (⟨"ab".toList, 0⟩ : ChunkData).content ≠ [] :=
  ⟨(C2_amended "paragraph" 5 3 "  ".toList).1 (by decide),
    (C2_amended "character" 5 3 "ab".toList).2 (by decide)
      [⟨"ab".toList, 0⟩] (by decide) ⟨"ab".toList, 0⟩ (by simp)⟩

/-- C2 counterexample: the input `"aaaaaaaa. "` is not all-whitespace,
yet with `unit_size = 5`, `overlap = 3` the sentence strategy emits a
second unit whose content is the empty string (the trailing separator
yields an empty final sentence, which is flushed as an empty chunk). -/
theorem C2_sentence_empty_unit :
    pyStrip "aaaaaaaa. ".toList ≠ [] ∧
    chunk "sentence" 5 3 "aaaaaaaa. ".toList =
      some [⟨"aaaaaaaa.".toList, 0⟩, ⟨[], 1⟩] :=
  ⟨by decide, by decide⟩

/-- C4 (amended): in the paragraph strategy, when a non-blank,
non-oversized paragraph overflows a nonempty accumulation, the
accumulation is emitted and the next accumulation is seeded with the
single most recent paragraph if and only if the *accumulated size*
exceeds `overlap` (not: if the most recent paragraph fits within
`overlap`); then the incoming paragraph is appended. -/
theorem C4_paragraph_carry (cs ov : ℕ) (st : ParaChunkState) (para0 : List Char)
    (hne : pyStrip para0 ≠ []) (hsize : (pyStrip para0).length ≤ cs)
    (hover : st.size + (pyStrip para0).length > cs) (hcur : st.cur ≠ []) :
    paraChunkStep cs ov para0 st =
      some { chunks := st.chunks ++ [pyJoin ['\n', '\n'] st.cur],
             cur := (if st.size > ov then [st.cur.getLast?.getD []] else []) ++
               [pyStrip para0],
             size := (if st.size > ov then (st.cur.getLast?.getD []).length else 0) +
               (pyStrip para0).length } := by
  simp only [paraChunkStep]
  rw [if_neg hne, if_neg (by omega : ¬(pyStrip para0).length > cs),
    if_pos ⟨hover, hcur⟩]
  by_cases hsz : st.size > ov
  · simp only [if_pos hsz]
  · simp only [if_neg hsz]

/-- C4 witness: the amended carry rule evaluated on the accumulation
`["aaaa", "bbbb"]` (size 8) with `unit_size = 10`, `overlap = 3` and
incoming paragraph `"ccc"`. -/
theorem C4_paragraph_carry_witness :
    paraChunkStep 10 3 "ccc".toList ⟨[], ["aaaa".toList, "bbbb".toList], 8⟩ =
      some { chunks := [] ++ [pyJoin ['\n', '\n'] ["aaaa".toList, "bbbb".toList]],
             cur := (if 8 > 3 then [(["aaaa".toList, "bbbb".toList] : List (List Char)).getLast?.getD []] else []) ++
               [pyStrip "ccc".toList],
             size := (if 8 > 3 then ((["aaaa".toList, "bbbb".toList] : List (List Char)).getLast?.getD []).length else 0) +
               (pyStrip "ccc".toList).length } :=
  C4_paragraph_carry 10 3 ⟨[], ["aaaa".toList, "bbbb".toList], 8⟩ "ccc".toList
    (by decide) (by decide) (by decide) (by decide)

/-- C4 counterexample: with `unit_size = 10`, `overlap = 3` and
accumulated paragraphs `"aaaa", "bbbb"` (size 8), the incoming paragraph
`"ccc"` overflows; the code carries the most recent paragraph `"bbbb"`
into the next accumulation even though its length 4 does **not** fit
within `overlap = 3` — and the carried paragraph is visible in the final
output `["aaaa\n\nbbbb", "bbbb\n\nccc"]` of the full run. -/
theorem C4_paragraph_carry_counterexample :
    paraChunkStep 10 3 "ccc".toList ⟨[], ["aaaa".toList, "bbbb".toList], 8⟩ =
      some ⟨["aaaa\n\nbbbb".toList], ["bbbb".toList, "ccc".toList], 7⟩ ∧
    ¬ ("bbbb".toList.length ≤ 3) ∧
    chunkByParagraph 10 3 "aaaa\n\nbbbb\n\nccc".toList =
      some ["aaaa\n\nbbbb".toList, "bbbb\n\nccc".toList] :=
  ⟨by decide, by decide, by decide⟩

theorem overlapPick_spec (ov : ℕ) :
    ∀ (rev acc : List (List Char)) (osz : ℕ),
      ∃ k, k ≤ rev.length ∧
        (overlapPick ov rev acc osz).1 = (rev.take k).reverse ++ acc ∧
        (overlapPick ov rev acc osz).2 = osz + sumLens (rev.take k) ∧
        (osz ≤ ov → (overlapPick ov rev acc osz).2 ≤ ov) ∧
        (∀ p rest2, rev.drop k = p :: rest2 →
          ov < (overlapPick ov rev acc osz).2 + p.length) := by
  intro rev
  induction rev with
  | nil =>
    intro acc osz
    refine ⟨0, le_refl 0, by simp [overlapPick], by simp [overlapPick, sumLens], ?_, ?_⟩
    · intro h
      simpa [overlapPick] using h
    · intro p rest2 h
      simp at h
  | cons s rest ih =>
    intro acc osz
    by_cases hfit : osz + s.length ≤ ov
    · obtain ⟨k, hk, h1, h2, h3, h4⟩ := ih (s :: acc) (osz + s.length)
      have hstep : overlapPick ov (s :: rest) acc osz =
          overlapPick ov rest (s :: acc) (osz + s.length) := by
        simp [overlapPick, hfit]
      refine ⟨k + 1, by simp only [List.length_cons]; omega, ?_, ?_, ?_, ?_⟩
      · rw [hstep, h1, List.take_succ_cons]
        simp
      · rw [hstep, h2, List.take_succ_cons]
        simp only [sumLens, List.map_cons, List.sum_cons]
        omega
      · intro _
        rw [hstep]
        exact h3 hfit
      · intro p rest2 hdrop
        rw [hstep]
        exact h4 p rest2 (by simpa using hdrop)
    · have hstep : overlapPick ov (s :: rest) acc osz = (acc, osz) := by
        simp [overlapPick, hfit]
      refine ⟨0, Nat.zero_le _, by simp [hstep], by simp [hstep, sumLens], ?_, ?_⟩
      · intro h
        rw [hstep]
        exact h
      · intro p rest2 hdrop
        simp only [List.drop_zero] at hdrop
        injection hdrop with hps hrest
        rw [hstep, ← hps]
        dsimp only
        omega

theorem sumLens_reverse (l : List (List Char)) : sumLens l.reverse = sumLens l := by
  simp [sumLens, List.map_reverse, List.sum_reverse]

/-- C5 (amended): in the sentence strategy, when an incoming sentence
overflows a nonempty accumulation, the accumulated text is emitted; the
new unit is then seeded with the backward-selected trailing sentences of
the just-emitted unit **only when the emitted text is longer than
`overlap`** — when the whole emitted text already fits within `overlap`,
nothing is carried over.  The backward selection itself behaves as the
claim says: it yields a suffix of the emitted sentences whose cumulative
length fits within the overlap budget, and it stops at the first
sentence (scanning backward) that would exceed the budget. -/
theorem C5_sentence_overlap (cs ov : ℕ) (st : SentChunkState) (s : List Char)
    (hover : st.size + s.length > cs) (hcur : st.cur ≠ []) :
    (sentChunkStep cs ov st s =
      if (pyJoin [' '] st.cur).length > ov then
        { chunks := st.chunks ++ [pyJoin [' '] st.cur],
          cur := (overlapPick ov st.cur.reverse [] 0).1 ++ [s],
          size := (overlapPick ov st.cur.reverse [] 0).2 + s.length }
      else
        { chunks := st.chunks ++ [pyJoin [' '] st.cur], cur := [s],
          size := s.length }) ∧
    (overlapPick ov st.cur.reverse [] 0).1 <:+ st.cur ∧
    (overlapPick ov st.cur.reverse [] 0).2 =
      sumLens (overlapPick ov st.cur.reverse [] 0).1 ∧
    (overlapPick ov st.cur.reverse [] 0).2 ≤ ov ∧
    (∀ l1 p, st.cur = l1 ++ p :: (overlapPick ov st.cur.reverse [] 0).1 →
      ov < (overlapPick ov st.cur.reverse [] 0).2 + p.length) := by
  obtain ⟨k, hk, h1, h2, h3, h4⟩ := overlapPick_spec ov st.cur.reverse [] 0
  have hseed : (overlapPick ov st.cur.reverse [] 0).1 =
      (st.cur.reverse.take k).reverse := by
    simpa using h1
  refine ⟨?_, ?_, ?_, h3 (Nat.zero_le ov), ?_⟩
  · simp only [sentChunkStep, if_pos (And.intro hover hcur)]
    by_cases hlen : (pyJoin [' '] st.cur).length > ov
    · simp only [if_pos hlen]
    · simp only [if_neg hlen]
      simp
  · rw [hseed]
    have hpre : st.cur.reverse.take k <+: st.cur.reverse := List.take_prefix k _
    have := List.reverse_suffix.mpr hpre
    simpa using this
  · rw [hseed, h2, sumLens_reverse]
    simp
  · intro l1 p hdec
    have hrevEq : st.cur.reverse =
        st.cur.reverse.take k ++ p :: l1.reverse := by
      conv_lhs => rw [hdec, hseed]
      simp [List.reverse_append]
    have hdrop : st.cur.reverse.drop k = p :: l1.reverse :=
      List.append_cancel_left
        ((List.take_append_drop k st.cur.reverse).trans hrevEq)
    exact h4 p l1.reverse hdrop

/-- C5 witness: the amended overflow rule evaluated with
`unit_size = 10`, `overlap = 8`, accumulated sentences `["ab."]` (size 3)
and incoming sentence `"aaaaaaa."`. -/
theorem C5_sentence_overlap_witness :
    sentChunkStep 10 8 ⟨[], ["ab.".toList], 3⟩ "aaaaaaa.".toList =
      (if (pyJoin [' '] ["ab.".toList]).length > 8 then
        { chunks := [] ++ [pyJoin [' '] ["ab.".toList]],
          cur := (overlapPick 8 (["ab.".toList] : List (List Char)).reverse [] 0).1 ++
            ["aaaaaaa.".toList],
          size := (overlapPick 8 (["ab.".toList] : List (List Char)).reverse [] 0).2 +
            "aaaaaaa.".toList.length }
      else
        { chunks := [] ++ [pyJoin [' '] ["ab.".toList]], cur := ["aaaaaaa.".toList],
          size := "aaaaaaa.".toList.length }) :=
  (C5_sentence_overlap 10 8 ⟨[], ["ab.".toList], 3⟩ "aaaaaaa.".toList
    (by decide) (by decide)).1

/-- C5 counterexample: with `unit_size = 10`, `overlap = 8`, emitting
the accumulated unit `"ab."` (length 3, which fits within the overlap
budget of 8) on the arrival of `"aaaaaaa."`: the claim would seed the
new unit with the trailing sentence `"ab."`, but the code seeds it with
nothing — visible in the full run, whose second unit is `"aaaaaaa."`
rather than `"ab. aaaaaaa."`. -/
theorem C5_sentence_overlap_counterexample :
    sentChunkStep 10 8 ⟨[], ["ab.".toList], 3⟩ "aaaaaaa.".toList =
      ⟨["ab.".toList], ["aaaaaaa.".toList], 8⟩ ∧
    "ab.".toList.length ≤ 8 ∧
    chunkBySentence 10 8 "ab. aaaaaaa.".toList = ["ab.".toList, "aaaaaaa.".toList] :=
  ⟨by decide, by decide, by decide⟩

/-- C9: an empty or whitespace-only query makes `retrieve` return an
empty result without calling the embedder or the vector index. -/
theorem C9_empty_query {Emb : Type} (embed : List Char → Emb)
    (search : Emb → ℕ → List Doc) (defaultTopK : ℕ) (query : List Char)
    (topK : Option ℕ) (h : pyStrip query = []) :
    retrieve embed search defaultTopK query topK = ⟨[], 0, 0⟩ := by
  simp only [retrieve, if_pos h]

/-- C9 witness: the whitespace-only query `"  "` against arbitrary
concrete collaborators. -/
theorem C9_empty_query_witness :
    retrieve (fun _ => (0 : ℕ)) (fun _ _ => ([] : List Doc)) 5 "  ".toList none =
      ⟨[], 0, 0⟩ :=
  C9_empty_query (fun _ => (0 : ℕ)) (fun _ _ => ([] : List Doc)) 5 "  ".toList none
    (by decide)

theorem foldl_append_toList_eq_flatten (hs ms : List Doc) (l : List ℕ) (acc : List Doc) :
    l.foldl (fun a i => a ++ (hs.get? i).toList ++ (ms.get? i).toList) acc
      = acc ++ (l.map (fun i => (hs.get? i).toList ++ (ms.get? i).toList)).flatten := by
  induction l generalizing acc with
  | nil => simp
  | cons x xs ih =>
    rw [List.foldl_cons, ih, List.map_cons, List.flatten_cons]
    simp [List.append_assoc]

theorem rangeFlat_single (l : List Doc) :
    ((List.range l.length).map (fun i => (l.get? i).toList)).flatten = l := by
  induction l with
  | nil => simp
  | cons x xs ih =>
    rw [List.length_cons, List.range_succ_eq_map]
    simpa [Function.comp_def] using ih

theorem rangeFlat_interleave (hs ms : List Doc) :
    ((List.range (max hs.length ms.length)).map
        (fun i => (hs.get? i).toList ++ (ms.get? i).toList)).flatten = interleave hs ms := by
  induction hs generalizing ms with
  | nil =>
    simpa [Nat.max_eq_right (Nat.zero_le ms.length)] using rangeFlat_single ms
  | cons x xs ih =>
    cases ms with
    | nil => simpa using rangeFlat_single (x :: xs)
    | cons y ys =>
      have hmax : max (x :: xs).length (y :: ys).length = max xs.length ys.length + 1 := by
        simp [List.length_cons, Nat.succ_max_succ]
      rw [hmax, List.range_succ_eq_map]
      simpa [Function.comp_def, interleave] using ih ys

/-- C3 (amended): lists of length at most 2 are returned unchanged; for
longer lists the diversity strategy sorts descending by relevance, splits
at `⌊n/2⌋` (the middle element of an odd-length list goes to the *lower*
half, not the upper one), and interleaves the halves. -/
theorem C3_diversity_amended (documents : List Doc) :
    (documents.length ≤ 2 → rankByDiversity documents = documents) ∧
    (3 ≤ documents.length →
      List.Sorted scoreGe (sortByScoreDesc documents) ∧
      (sortByScoreDesc documents).Perm documents ∧
      rankByDiversity documents =
        interleave ((sortByScoreDesc documents).take (documents.length / 2))
          ((sortByScoreDesc documents).drop (documents.length / 2))) := by
  constructor
  · intro h
    unfold rankByDiversity
    rw [if_pos h]
  · intro h
    refine ⟨List.sorted_insertionSort scoreGe documents,
      List.perm_insertionSort scoreGe documents, ?_⟩
    have hl : (sortByScoreDesc documents).length = documents.length :=
      List.length_insertionSort scoreGe documents
    simp only [rankByDiversity]
    rw [if_neg (by omega)]
    rw [foldl_append_toList_eq_flatten, List.nil_append, rangeFlat_interleave, hl]

/-- C3 witness: the amended characterisation evaluated on a two-element
list and on a three-element list. -/
theorem C3_diversity_amended_witness :
    (rankByDiversity [⟨some 1, none, 0⟩, ⟨some 2, none, 1⟩] =
      [⟨some 1, none, 0⟩, ⟨some 2, none, 1⟩]) ∧
    rankByDiversity [⟨some 3, none, 0⟩, ⟨some 2, none, 1⟩, ⟨some 1, none, 2⟩] =
      interleave
        ((sortByScoreDesc [⟨some 3, none, 0⟩, ⟨some 2, none, 1⟩, ⟨some 1, none, 2⟩]).take
          (([⟨some 3, none, 0⟩, ⟨some 2, none, 1⟩, ⟨some 1, none, 2⟩] : List Doc).length / 2))
        ((sortByScoreDesc [⟨some 3, none, 0⟩, ⟨some 2, none, 1⟩, ⟨some 1, none, 2⟩]).drop
          (([⟨some 3, none, 0⟩, ⟨some 2, none, 1⟩, ⟨some 1, none, 2⟩] : List Doc).length / 2)) :=
  ⟨(C3_diversity_amended [⟨some 1, none, 0⟩, ⟨some 2, none, 1⟩]).1 (by decide),
    ((C3_diversity_amended [⟨some 3, none, 0⟩, ⟨some 2, none, 1⟩, ⟨some 1, none, 2⟩]).2
      (by decide)).2.2⟩

/-- C3 counterexample: on three documents with scores `3 > 2 > 1` the
code's diversity ranking (upper half excludes the middle element) yields
`[3, 2, 1]`, while the claimed split (upper half includes the middle
element) would yield `[3, 1, 2]`. -/
theorem C3_diversity_counterexample :
    rankByDiversity [⟨some 3, none, 0⟩, ⟨some 2, none, 1⟩, ⟨some 1, none, 2⟩] =
      [⟨some 3, none, 0⟩, ⟨some 2, none, 1⟩, ⟨some 1, none, 2⟩] ∧
    diversityClaimC3 [⟨some 3, none, 0⟩, ⟨some 2, none, 1⟩, ⟨some 1, none, 2⟩] =
      [⟨some 3, none, 0⟩, ⟨some 1, none, 2⟩, ⟨some 2, none, 1⟩] ∧
    rankByDiversity [⟨some 3, none, 0⟩, ⟨some 2, none, 1⟩, ⟨some 1, none, 2⟩] ≠
      diversityClaimC3 [⟨some 3, none, 0⟩, ⟨some 2, none, 1⟩, ⟨some 1, none, 2⟩] :=
  ⟨by decide, by decide, by decide⟩

theorem keepMax_isFirstMax (f : Doc → ℚ) (l : List Doc) (b0 : Doc) :
    IsFirstMax f (b0 :: l) (keepMax f b0 l) := by
  induction l generalizing b0 with
  | nil =>
    exact ⟨[], [], rfl, by simp [keepMax], by simp⟩
  | cons y ys ih =>
    have hstep : keepMax f b0 (y :: ys) = keepMax f (if f b0 < f y then y else b0) ys := by
      simp [keepMax]
    by_cases hy : f b0 < f y
    · rw [hstep, if_pos hy]
      obtain ⟨l1, l2, heq, hle, hlt⟩ := ih y
      have hyr : f y ≤ f (keepMax f y ys) := hle y (by simp)
      refine ⟨b0 :: l1, l2, by rw [List.cons_append, heq], ?_, ?_⟩
      · intro z hz
        rcases List.mem_cons.mp hz with rfl | hz
        · exact le_of_lt (lt_of_lt_of_le hy hyr)
        · exact hle z hz
      · intro z hz
        rcases List.mem_cons.mp hz with rfl | hz
        · exact lt_of_lt_of_le hy hyr
        · exact hlt z hz
    · rw [hstep, if_neg hy]
      obtain ⟨l1, l2, heq, hle, hlt⟩ := ih b0
      have hyb : f y ≤ f b0 := le_of_not_lt hy
      cases l1 with
      | nil =>
        have hb : b0 = keepMax f b0 ys := by
          simpa using (congrArg (fun t => t.head?) heq)
        refine ⟨[], y :: ys, by simpa using hb, ?_, by simp⟩
        intro z hz
        rcases List.mem_cons.mp hz with rfl | hz
        · exact hle z (by simp)
        · rcases List.mem_cons.mp hz with rfl | hz
          · exact le_trans hyb (hle b0 (by simp))
          · exact hle z (by simp [hz])
      | cons a l1t =>
        have ha1 : b0 = a := by
          simpa using (congrArg (fun t => t.head?) heq)
        have ha2 : ys = l1t ++ keepMax f b0 ys :: l2 := by
          simpa using (congrArg (fun t => t.tail) heq)
        have hb0lt : f b0 < f (keepMax f b0 ys) := by
          have := hlt a (by simp)
          rwa [← ha1] at this
        refine ⟨b0 :: y :: l1t, l2, ?_, ?_, ?_⟩
        · conv_lhs => rw [ha2]
          simp
        · intro z hz
          rcases List.mem_cons.mp hz with rfl | hz
          · exact le_of_lt hb0lt
          · rcases List.mem_cons.mp hz with rfl | hz
            · exact le_of_lt (lt_of_le_of_lt hyb hb0lt)
            · exact hle z (by simp [hz])
        · intro z hz
          rcases List.mem_cons.mp hz with rfl | hz
          · exact hb0lt
          · rcases List.mem_cons.mp hz with rfl | hz
            · exact lt_of_le_of_lt hyb hb0lt
            · exact hlt z (by simp [hz])

theorem isFirstMax_mem {f : Doc → ℚ} {l : List Doc} {b : Doc}
    (h : IsFirstMax f l b) : b ∈ l := by
  obtain ⟨l1, l2, heq, -, -⟩ := h
  rw [heq]
  exact List.mem_append.mpr (Or.inr (by simp))

theorem mmrLoop_trace (lam : ℚ) (n : ℕ) :
    ∀ (fuel : ℕ) (selected remaining : List Doc),
      remaining.length = fuel → selected.length + remaining.length = n →
      ∃ out, mmrLoop lam n selected remaining fuel = selected ++ out ∧
        MmrTrace lam selected remaining out ∧ out.Perm remaining := by
  intro fuel
  induction fuel with
  | zero =>
    intro selected remaining hlen _
    have hrem : remaining = [] := List.length_eq_zero.mp hlen
    subst hrem
    exact ⟨[], by simp [mmrLoop], MmrTrace.done selected, List.Perm.refl []⟩
  | succ fuel ih =>
    intro selected remaining hlen hn
    match remaining, hlen with
    | r :: rs, hlen =>
      have hlen' : rs.length + 1 = fuel + 1 := by simpa using hlen
      have hn' : selected.length + (rs.length + 1) = n := by simpa using hn
      have hcond : (r :: rs ≠ [] ∧ selected.length < n) := by
        refine ⟨by simp, by omega⟩
      have hfm : IsFirstMax (mmrScore lam selected) (r :: rs)
          (keepMax (mmrScore lam selected) r rs) := keepMax_isFirstMax _ _ _
      have hmem : keepMax (mmrScore lam selected) r rs ∈ r :: rs := isFirstMax_mem hfm
      have hperm_erase : (r :: rs).Perm
          (keepMax (mmrScore lam selected) r rs ::
            (r :: rs).erase (keepMax (mmrScore lam selected) r rs)) :=
        List.perm_cons_erase hmem
      have hlen_erase :
          ((r :: rs).erase (keepMax (mmrScore lam selected) r rs)).length = fuel := by
        rw [List.length_erase_of_mem hmem]
        simp only [List.length_cons]
        omega
      have hn2 : (selected ++ [keepMax (mmrScore lam selected) r rs]).length +
          ((r :: rs).erase (keepMax (mmrScore lam selected) r rs)).length = n := by
        rw [List.length_append, hlen_erase]
        simp only [List.length_cons, List.length_nil]
        omega
      obtain ⟨out, hout, htrace, hperm⟩ :=
        ih (selected ++ [keepMax (mmrScore lam selected) r rs])
          ((r :: rs).erase (keepMax (mmrScore lam selected) r rs)) hlen_erase hn2
      refine ⟨keepMax (mmrScore lam selected) r rs :: out, ?_,
        MmrTrace.step hfm htrace, ?_⟩
      · rw [mmrLoop, if_pos hcond]
        show mmrLoop lam n (selected ++ [keepMax (mmrScore lam selected) r rs])
          ((r :: rs).erase (keepMax (mmrScore lam selected) r rs)) fuel = _
        rw [hout]
        simp
      · exact ((hperm.cons _).trans hperm_erase.symm)

/-- C6: for every candidate list and every `lambda`, MMR ranking returns
a permutation of the input; its first element is a highest-relevance
candidate; and (for lists long enough to enter the greedy loop) the tail
is produced by repeatedly taking the earliest remaining candidate
maximising `lambda * relevance − (1 − lambda) * max_overlap_with_selected`
as formalised by `MmrTrace`. -/
theorem C6_mmr_greedy (lam : ℚ) (documents : List Doc) :
    (rankByMmr lam documents).Perm documents ∧
    (∀ s0 rest, rankByMmr lam documents = s0 :: rest →
      ∀ d ∈ documents, d.scoreD ≤ s0.scoreD) ∧
    (∀ s0 srest, sortByScoreDesc documents = s0 :: srest → 2 ≤ documents.length →
      MmrTrace lam [s0] srest ((rankByMmr lam documents).drop 1)) := by
  have hsort : List.Sorted scoreGe (sortByScoreDesc documents) :=
    List.sorted_insertionSort scoreGe documents
  have hsperm : (sortByScoreDesc documents).Perm documents :=
    List.perm_insertionSort scoreGe documents
  by_cases hshort : documents.length ≤ 1
  · have hr : rankByMmr lam documents = documents := by
      unfold rankByMmr
      rw [if_pos hshort]
    refine ⟨by rw [hr], ?_, ?_⟩
    · intro s0 rest hEq d hd
      rw [hr] at hEq
      subst hEq
      have hrest : rest = [] := by
        simp only [List.length_cons] at hshort
        exact List.length_eq_zero.mp (by omega)
      subst hrest
      rcases List.mem_cons.mp hd with rfl | h1
      · exact le_refl _
      · simp at h1
    · intro s0 srest hEq h2
      omega
  · have h2 : 2 ≤ documents.length := by omega
    have hslen : (sortByScoreDesc documents).length = documents.length :=
      List.length_insertionSort scoreGe documents
    obtain ⟨s0, srest, hs⟩ : ∃ s0 srest, sortByScoreDesc documents = s0 :: srest := by
      cases hsd : sortByScoreDesc documents with
      | nil =>
        rw [hsd] at hslen
        simp at hslen
        omega
      | cons a l => exact ⟨a, l, rfl⟩
    have hr : rankByMmr lam documents = mmrLoop lam documents.length [s0] srest srest.length := by
      unfold rankByMmr
      rw [if_neg hshort, hs]
    have hsrlen : 1 + srest.length = documents.length := by
      rw [hs] at hslen
      simp only [List.length_cons] at hslen
      omega
    obtain ⟨out, hout, htrace, hperm⟩ :=
      mmrLoop_trace lam documents.length srest.length [s0] srest rfl (by simpa using hsrlen)
    have hres : rankByMmr lam documents = s0 :: out := by
      rw [hr, hout]
      simp
    have hmax : ∀ d ∈ documents, d.scoreD ≤ s0.scoreD := by
      intro d hd
      have hd2 : d ∈ sortByScoreDesc documents := hsperm.symm.subset hd
      rw [hs] at hd2
      rcases List.mem_cons.mp hd2 with h1 | h1
      · exact h1 ▸ le_refl _
      · have := (List.sorted_cons.mp (hs ▸ hsort)).1 d h1
        exact this
    refine ⟨?_, ?_, ?_⟩
    · rw [hres]
      have : (s0 :: out).Perm (s0 :: srest) := hperm.cons s0
      exact this.trans (hs ▸ hsperm)
    · intro t0 trest hEq d hd
      have h12 := hres.symm.trans hEq
      injection h12 with hA hB
      rw [← hA]
      exact hmax d hd
    · intro t0 trest hEq _
      have h12 := hs.symm.trans hEq
      injection h12 with hA hB
      rw [← hA, ← hB, hres]
      simpa using htrace

unseal Rat.add Rat.mul Rat.sub Rat.inv in
/-- C6 witness: the MMR characterisation evaluated on three concrete
documents with scores `1, 3, 2`. -/
theorem C6_mmr_greedy_witness :
    (rankByMmr (1 / 2) [⟨some 1, none, 0⟩, ⟨some 3, none, 1⟩, ⟨some 2, none, 2⟩]).Perm
      [⟨some 1, none, 0⟩, ⟨some 3, none, 1⟩, ⟨some 2, none, 2⟩] ∧
    (∀ d ∈ ([⟨some 1, none, 0⟩, ⟨some 3, none, 1⟩, ⟨some 2, none, 2⟩] : List Doc),
      d.scoreD ≤ (⟨some 3, none, 1⟩ : Doc).scoreD) ∧
    MmrTrace (1 / 2) [⟨some 3, none, 1⟩] [⟨some 2, none, 2⟩, ⟨some 1, none, 0⟩]
      ((rankByMmr (1 / 2) [⟨some 1, none, 0⟩, ⟨some 3, none, 1⟩, ⟨some 2, none, 2⟩]).drop 1) :=
  ⟨(C6_mmr_greedy (1 / 2) [⟨some 1, none, 0⟩, ⟨some 3, none, 1⟩, ⟨some 2, none, 2⟩]).1,
    (C6_mmr_greedy (1 / 2) [⟨some 1, none, 0⟩, ⟨some 3, none, 1⟩, ⟨some 2, none, 2⟩]).2.1
      ⟨some 3, none, 1⟩ [⟨some 2, none, 2⟩, ⟨some 1, none, 0⟩] (by decide),
    (C6_mmr_greedy (1 / 2) [⟨some 1, none, 0⟩, ⟨some 3, none, 1⟩, ⟨some 2, none, 2⟩]).2.2
      ⟨some 3, none, 1⟩ [⟨some 2, none, 2⟩, ⟨some 1, none, 0⟩] (by decide) (by decide)⟩

/-- C10: `rank` never reads its `query` argument, so its output is
identical for any two queries (including an absent one). -/
theorem C10_rank_query_independent (strategy : String) (documents : List Doc)
    (topK : Option ℕ) (q1 q2 : Option String) :
    rank strategy documents q1 topK = rank strategy documents q2 topK := rfl

/-- C8: with a limit `k` smaller than the ranked length, `rank` returns
exactly `k` items, equal to the first `k` items of the unlimited result:
truncation happens after ranking. -/
theorem C8_rank_truncation (strategy : String) (documents : List Doc)
    (query : Option String) (k : ℕ)
    (h : k < (rank strategy documents query none).length) :
    rank strategy documents query (some k) =
      (rank strategy documents query none).take k ∧
    (rank strategy documents query (some k)).length = k := by
  unfold rank at h ⊢
  by_cases hd : documents = []
  · rw [if_pos hd] at h
    exact absurd h (by simp)
  · simp only [if_neg hd] at h ⊢
    refine ⟨by rw [if_pos h], ?_⟩
    rw [if_pos h, List.length_take]
    exact min_eq_left (Nat.le_of_lt h)

/-- C8 witness: three documents under the similarity strategy, limit 2. -/
theorem C8_rank_truncation_witness :
    (2 : ℕ) <
      (rank "similarity" [⟨some 1, none, 0⟩, ⟨some 3, none, 1⟩, ⟨some 2, none, 2⟩] none none).length ∧
    rank "similarity" [⟨some 1, none, 0⟩, ⟨some 3, none, 1⟩, ⟨some 2, none, 2⟩] none (some 2) =
      (rank "similarity" [⟨some 1, none, 0⟩, ⟨some 3, none, 1⟩, ⟨some 2, none, 2⟩] none none).take 2 := by
  refine ⟨by decide, ?_⟩
  exact (C8_rank_truncation "similarity"
    [⟨some 1, none, 0⟩, ⟨some 3, none, 1⟩, ⟨some 2, none, 2⟩] none 2 (by decide)).1

end KRAG
